import Mathlib

/-!
Verification of the kami HTTP router (github.com/elmq0022/kami).

Paths are embedded as `List Char` (the router only inspects ASCII bytes),
HTTP methods as `String`, and handlers as an opaque type parameter `H`,
mirroring how the Go code stores them by reference without inspecting their
bodies.

The first part embeds the segment radix tree of src/internal/radix/radix.go:
`New`, `addRoute`, `compress` and `lookup`.  A trie node's child slice is
embedded as the mutually inductive list type `RKids` so that all operations
are structurally recursive.
-/

namespace Kami

/-- Go `strings.HasPrefix s pat` check on `List Char`: does `s` start with `pat`?
(arguments: pattern first, then the string). -/
def strStarts : List Char → List Char → Bool
  | [], _ => true
  | _ :: _, [] => false
  | a :: p, b :: s => a = b && strStarts p s

/-- Go `strings.Split(s, "/")` on `List Char`: split at every slash, keeping
empty chunks, so the result always has one more chunk than there are slashes. -/
def splitSlash : List Char → List (List Char)
  | [] => [[]]
  | c :: rest =>
    if c = '/' then [] :: splitSlash rest
    else
      match splitSlash rest with
      | [] => [[c]]
      | s :: ss => (c :: s) :: ss

mutual

/-- A trie node of the radix matcher (src/internal/radix/radix.go `Node`):
a prefix fragment, the ordered child list, and the optional terminal map from
HTTP method to handler (`none` embeds Go's nil map). -/
inductive RNode (H : Type) where
  | mk (pfx : List Char) (kids : RKids H) (terminal : Option (List (String × H)))

/-- The ordered child slice of a trie node. -/
inductive RKids (H : Type) where
  | nil
  | cons (c : RNode H) (cs : RKids H)

end

namespace RNode

def pfxOf : RNode H → List Char
  | mk p _ _ => p

def kidsOf : RNode H → RKids H
  | mk _ cs _ => cs

def terminalOf : RNode H → Option (List (String × H))
  | mk _ _ t => t

end RNode

/-- Insert-or-overwrite into a Go method map embedded as an association list. -/
def updMap (k : String) (v : H) : List (String × H) → List (String × H)
  | [] => [(k, v)]
  | (k2, v2) :: rest => if k2 = k then (k, v) :: rest else (k2, v2) :: updMap k v rest

/-- Read from a Go method map embedded as an association list. -/
def findList (k : String) : List (String × H) → Option H
  | [] => none
  | (k2, v) :: rest => if k2 = k then some v else findList k rest

/-- Read from a Go method map; reading a nil map yields nothing. -/
def findMap (k : String) : Option (List (String × H)) → Option H
  | none => none
  | some l => findList k l

/-- First child whose prefix equals the segment (the scan in `addRoute`). -/
def kget (seg : List Char) : RKids H → Option (RNode H)
  | .nil => none
  | .cons c cs => if c.pfxOf = seg then some c else kget seg cs

/-- Replace the first child whose prefix equals the segment. -/
def kset (seg : List Char) (n : RNode H) : RKids H → RKids H
  | .nil => .nil
  | .cons c cs => if c.pfxOf = seg then .cons n cs else .cons c (kset seg n cs)

/-- Append a child at the end of the child slice. -/
def kapp (n : RNode H) : RKids H → RKids H
  | .nil => .cons n .nil
  | .cons c cs => .cons c (kapp n cs)

/-- A route supplied to the radix constructor: method, path, handler. -/
structure RRoute (H : Type) where
  method : String
  path : List Char
  handler : H

/-- `Radix.addRoute` of src/internal/radix/radix.go: walk the segment list,
descending into the child whose prefix equals the current segment, creating a
new child (appended at the end of the child slice) when none matches, and at
the final segment store the handler under the method in the terminal map
(creating the map if it was nil).  The Go in-place descent into the matching
child is expressed here as get-then-set of that child. -/
def addRoute (method : String) (h : H) : List (List Char) → RNode H → RNode H
  | [], .mk p cs t => .mk p cs (some (updMap method h (t.getD [])))
  | seg :: rest, .mk p cs t =>
    match kget seg cs with
    | some c => .mk p (kset seg (addRoute method h rest c) cs) t
    | none => .mk p (kapp (addRoute method h rest (.mk seg .nil none)) cs) t

mutual

/-- `compress` of src/internal/radix/radix.go: post-order pass that merges a
non-root node having exactly one child and no terminal map into that child,
joining the prefixes with a slash. -/
def compress : RNode H → RNode H
  | .mk p cs t =>
    if p = [] then .mk p (compressKids cs) t
    else
      match compressKids cs, t with
      | .cons c .nil, none => .mk (p ++ '/' :: c.pfxOf) c.kidsOf c.terminalOf
      | cs3, t3 => .mk p cs3 t3

def compressKids : RKids H → RKids H
  | .nil => .nil
  | .cons c cs => .cons (compress c) (compressKids cs)

end

/-- The boundary-checked prefix match of `lookup`: the child prefix leads the
remaining path and the match ends exactly at the end of the path or at a slash. -/
def matchB (pfx path : List Char) : Bool :=
  strStarts pfx path && (path.length == pfx.length || path[pfx.length]? == some '/')

/-- Strip a single leading slash, as `lookup` does on entry to each node. -/
def stripSlash : List Char → List Char
  | '/' :: rest => rest
  | p => p

mutual

/-- `lookup` of src/internal/radix/radix.go: strip one leading slash; an empty
remaining path is resolved against the node's terminal map; otherwise scan the
children. -/
def rlookup : RNode H → String → List Char → Option H
  | .mk _ cs t, m, path =>
    match stripSlash path with
    | [] => findMap m t
    | p2 => rscan cs m p2

/-- The child-scan loop of `lookup`: commit to the first child whose prefix
matches at a slash boundary and return its result, even when that result is a
miss. -/
def rscan : RKids H → String → List Char → Option H
  | .nil, _, _ => none
  | .cons c cs, m, p =>
    if matchB c.pfxOf p then rlookup c m (p.drop c.pfxOf.length)
    else rscan cs m p

end

/-- The constructor loop of `New`: reject a path that is empty or does not
start with a slash, otherwise insert the route's segments; a rejection aborts
the whole construction. -/
def buildLoop (root : RNode H) : List (RRoute H) → Except String (RNode H)
  | [] => .ok root
  | r :: rest =>
    match r.path with
    | '/' :: _ => buildLoop (addRoute r.method r.handler ((splitSlash r.path).tail) root) rest
    | _ => .error "path must start with a slash"

/-- `New` of src/internal/radix/radix.go: fold the routes into an empty root,
then run the compression pass. -/
def radixNew (routes : List (RRoute H)) : Except String (RNode H) :=
  (buildLoop (.mk [] .nil none) routes).map compress

/-- `Radix.Lookup`: look up from the root. -/
def radixLookup (t : RNode H) (method : String) (path : List Char) : Option H :=
  rlookup t method path

/-!
The parameter-aware radix matcher of the current kami tree (the version whose
`Lookup` returns `(handler, params, found)`).  Its Go source is not part of
this snapshot — only its callers (src/router/router.go, src/unnamed/part_000)
and its round-trip tests (src/unnamed/part_004) are — so it is modelled from
the specification, section 4.1.  It reuses the trie shape `RNode` and the
segment insertion `addRoute`, which the spec describes identically for both
generations.
-/

/-- Modelled from the spec: a literal segment is any segment that is not a
`:name` parameter and not a `*name` wildcard. -/
def isLitSeg : List Char → Bool
  | ':' :: _ => false
  | '*' :: _ => false
  | _ => true

/-- One path segment: everything up to the next slash or the end of string. -/
def segTake (p : List Char) : List Char :=
  p.takeWhile (fun c => !(c == '/'))

/-- The remainder of the path after its first segment (begins with a slash or
is empty). -/
def segRest (p : List Char) : List Char :=
  p.drop (segTake p).length

mutual

/-- Modelled from the spec: `Lookup` of the parameter-aware radix matcher
(source absent from the snapshot).  Walk the trie from the root; at each node
strip one leading slash; an empty remaining path matches iff the terminal map
holds the method.  Otherwise scan children in the fixed precedence order
literal before parameter before wildcard, committing to the first child that
matches: a literal child by a boundary-checked prefix match, a parameter child
unconditionally against one segment (binding the segment to the name), a
wildcard child against the entire remainder (binding it to the name).
Captured bindings accumulate into one mapping returned with the handler. -/
def plookup : RNode H → String → List Char → List (String × String) → Option (H × List (String × String))
  | .mk _ cs t, m, path, acc =>
    match stripSlash path with
    | [] =>
      match findMap m t with
      | some h => some (h, acc)
      | none => none
    | p2 =>
      match pscanLit cs m p2 acc with
      | some res => res
      | none =>
        match pscanParam cs m p2 acc with
        | some res => res
        | none =>
          match pscanWild cs m p2 acc with
          | some res => res
          | none => none

/-- Modelled from the spec: the literal phase of the child scan — commit to
the first literal child whose prefix matches a leading run of the remaining
path ending exactly at a slash boundary. -/
def pscanLit : RKids H → String → List Char → List (String × String) → Option (Option (H × List (String × String)))
  | .nil, _, _, _ => none
  | .cons c cs, m, p, acc =>
    if isLitSeg c.pfxOf && matchB c.pfxOf p then some (plookup c m (p.drop c.pfxOf.length) acc)
    else pscanLit cs m p acc

/-- Modelled from the spec: the parameter phase of the child scan — commit to
the first `:name` child, which always matches one segment and binds it. -/
def pscanParam : RKids H → String → List Char → List (String × String) → Option (Option (H × List (String × String)))
  | .nil, _, _, _ => none
  | .cons c cs, m, p, acc =>
    match c.pfxOf with
    | ':' :: nm => some (plookup c m (segRest p) (acc ++ [(String.mk nm, String.mk (segTake p))]))
    | _ => pscanParam cs m p acc

/-- Modelled from the spec: the wildcard phase of the child scan — commit to
the first `*name` child, which matches the entire remainder and binds it. -/
def pscanWild : RKids H → String → List Char → List (String × String) → Option (Option (H × List (String × String)))
  | .nil, _, _, _ => none
  | .cons c cs, m, p, acc =>
    match c.pfxOf with
    | '*' :: nm => some (plookup c m [] (acc ++ [(String.mk nm, String.mk p)]))
    | _ => pscanWild cs m p acc

end

/-- Modelled from the spec: `AddRoute(method, path, handler)` of the
parameter-aware radix — reject a path that does not start with a slash with a
synchronous malformed-pattern error, otherwise insert the path's segments with
the same segment insertion as the snapshot's `addRoute`. -/
def paddRoute (t : RNode H) (method : String) (path : List Char) (h : H) : Except String (RNode H) :=
  match path with
  | '/' :: _ => .ok (addRoute method h ((splitSlash path).tail) t)
  | _ => .error "path must start with a slash"

/-- An empty parameter-aware trie, as created by `radix.New()`. -/
def pEmpty (H : Type) : RNode H :=
  .mk [] .nil none

/-!
The router layer.  Requests, responses and handlers are embedded as values; a
Go panic raised by a handler or middleware is embedded as the `Except.error`
branch of the handler's result, and the dispatcher's `recover` boundary as the
function that turns that branch into a generic 500 response.
-/

/-- An HTTP response as far as the router observes it: status and body. -/
structure GoResp where
  status : Nat
  body : String
deriving DecidableEq

/-- A request: method, URL path, and the context slot the router uses for
parameter propagation (`none` embeds a context without a bound mapping). -/
structure GoReq where
  method : String
  path : List Char
  ctxParams : Option (List (String × String))

/-- A handler (`types.Handler`): it either returns its responder's response or
panics (`Except.error`). -/
def GoHandler : Type :=
  GoReq → Except String GoResp

/-- A middleware (`types.Middleware`): a handler decorator. -/
def GoMW : Type :=
  GoHandler → GoHandler

/-- The generic 500 response written by the dispatcher's recover branch
(`http.Error` with `http.StatusText(http.StatusInternalServerError)`). -/
def resp500 : GoResp :=
  { status := 500, body := "Internal Server Error" }

/-- Run a handler under the dispatcher's recover boundary: a panic anywhere in
the handler/middleware stack becomes the generic 500 response. -/
def runH (h : GoHandler) (req : GoReq) : GoResp :=
  match h req with
  | .ok r => r
  | .error _ => resp500

/-- Modelled from the spec: `WithParams` (source absent from the snapshot) —
bind a parameter mapping into the request context. -/
def withParams (req : GoReq) (ps : List (String × String)) : GoReq :=
  { req with ctxParams := some ps }

/-- Modelled from the spec: `GetParams` (source absent from the snapshot) —
read the bound mapping, yielding an empty (never absent) mapping when no
parameters were bound. -/
def getParams (req : GoReq) : List (String × String) :=
  req.ctxParams.getD []

/-- The Go loop `for i := len(ms)-1; i >= 0; i-- { h = ms[i](h) }` used both by
registration-time wrapping (`Router.add`) and by the request-time global chain
(src/unnamed/part_000 `ServeHTTP`): the first-listed middleware ends up
outermost. -/
def wrapMws (ms : List GoMW) (h : GoHandler) : GoHandler :=
  ms.foldr (fun mw acc => mw acc) h

/-!
The builder-style router of src/router/router.go.  Its shared, mutable state
(the trie and the atomic started flag, plus the configured not-found handler
set at construction) is `RouterSt`; the per-handle immutable value built by
`Prefix`/`Use` (the accumulated path prefix and middleware chain that
`shallowCopy` copies) is `Handle`.
-/

/-- State shared by every handle of one router: the radix trie, the configured
not-found handler, and the atomic started flag. -/
structure RouterSt where
  trie : RNode GoHandler
  notFound : GoHandler
  started : Bool

/-- The per-handle immutable builder value: accumulated prefix and middleware. -/
structure Handle where
  pfx : List Char
  mws : List GoMW

/-- Go `strings.TrimRight(p, "/")`: drop every trailing slash. -/
def rtrimSlash (p : List Char) : List Char :=
  (p.reverse.dropWhile (fun c => c == '/')).reverse

/-- Go `strings.TrimLeft(p, "/")`: drop every leading slash. -/
def ltrimSlash (p : List Char) : List Char :=
  p.dropWhile (fun c => c == '/')

/-- `Router.Prefix` of src/router/router.go: an empty segment returns a copy
with an unchanged prefix; otherwise the new handle's prefix is the old prefix
without trailing slashes, a slash, and the segment without leading slashes. -/
def prefixB (hd : Handle) (seg : List Char) : Handle :=
  if seg = [] then hd
  else { hd with pfx := rtrimSlash hd.pfx ++ '/' :: ltrimSlash seg }

/-- `Router.Use` of src/router/router.go: the new handle's middleware chain is
the old chain (copied by `shallowCopy`) with the new middleware appended. -/
def useB (hd : Handle) (ms : List GoMW) : Handle :=
  { hd with mws := hd.mws ++ ms }

/-- `Router.add` of src/router/router.go: once the started flag is set, every
registration panics with the documented message naming the handle's path and
touches nothing; otherwise the handler is wrapped in the handle's middleware
(first-listed outermost) and inserted at the handle's prefix, an insertion
error also becoming a panic.  The returned pair is the shared state afterwards
and the panic message, if any. -/
def addB (st : RouterSt) (hd : Handle) (method : String) (f : GoHandler) : RouterSt × Option String :=
  if st.started then
    (st, some ("cannot register path: " ++ String.mk hd.pfx ++ " since the router is running"))
  else
    match paddRoute st.trie method hd.pfx (wrapMws hd.mws f) with
    | .ok t2 => ({ st with trie := t2 }, none)
    | .error e => (st, some (method ++ " " ++ String.mk hd.pfx ++ ": " ++ e))

/-- `Router.ServeHTTP` of src/router/router.go: set the started flag, look the
request up, on a miss fall back to the not-found handler with an explicitly
empty parameter mapping, bind the mapping into the context, and run the
handler under the recover boundary. -/
def serveB (st : RouterSt) (req : GoReq) : RouterSt × GoResp :=
  let st2 := { st with started := true }
  match plookup st.trie req.method req.path [] with
  | some (h, ps) => (st2, runH h (withParams req ps))
  | none => (st2, runH st.notFound (withParams req []))

/-!
The earlier router generation of src/unnamed/part_000, whose `ServeHTTP`
applies the accumulated global middleware chain at request time, around the
resolved handler and equally around the not-found handler.
-/

/-- The router of src/unnamed/part_000: trie, not-found handler, accumulated
global middleware chain, started flag. -/
structure RouterG where
  trie : RNode GoHandler
  notFound : GoHandler
  globalMws : List GoMW
  started : Bool

/-- `Router.ServeHTTP` of src/unnamed/part_000: set the started flag, look the
request up, fall back to the not-found handler with an empty mapping on a
miss, bind the mapping, wrap the chosen handler in the global chain
(first-registered outermost) and run it under the recover boundary. -/
def serveG (r : RouterG) (req : GoReq) : RouterG × GoResp :=
  let r2 := { r with started := true }
  match plookup r.trie req.method req.path [] with
  | some (h, ps) => (r2, runH (wrapMws r.globalMws h) (withParams req ps))
  | none => (r2, runH (wrapMws r.globalMws r.notFound) (withParams req []))

/-- `DefaultNotFoundHandler` of src/handlers/default_not_found.go: a 404
response with body Not Found. -/
def defaultNotFound : GoHandler :=
  fun _ => .ok { status := 404, body := "Not Found" }

/-- Convenience: the characters of a string literal. -/
def chars (s : String) : List Char :=
  s.toList

/-- Registering a list of routes one by one in list order through the
parameter-aware `AddRoute`, stopping at the first error, as a registration
phase does. -/
def pBuildFrom (t : RNode H) : List (String × List Char × H) → Except String (RNode H)
  | [] => .ok t
  | (m, path, h) :: rest =>
    match paddRoute t m path h with
    | .ok t2 => pBuildFrom t2 rest
    | .error e => .error e

/-- Registration of a route list into an empty parameter-aware trie. -/
def pBuild (H : Type) (routes : List (String × List Char × H)) : Except String (RNode H) :=
  pBuildFrom (pEmpty H) routes

/-!
Claim theorems.
-/

/-- C10: in the snapshot's radix matcher, constructing the trie from the
single route (m, "/", h) stores the handler in a child node with an empty
prefix, and `Lookup(m, "/")` nevertheless consults only the root's nil
terminal map, so it returns a miss: a route registered at the bare root path
is unreachable through `Lookup`. -/
theorem root_route_unreachable {H : Type} (m : String) (h : H) :
    radixNew [⟨m, chars "/", h⟩] = .ok (.mk [] (.cons (.mk [] .nil (some [(m, h)])) .nil) none)
      ∧ (radixNew [⟨m, chars "/", h⟩]).toOption.map (fun t => rlookup t m (chars "/")) = some none :=
  ⟨rfl, rfl⟩

/-- C1: in the parameter-aware matcher (modelled from the spec), literal
children take precedence over parameter children regardless of registration
order: with /user/list and /user/:id registered in either order,
Lookup(GET, "/user/list") returns the static handler with no bindings and
Lookup(GET, "/user/bob") returns the parameter handler binding id to bob. -/
theorem lookup_precedence_literal_first {H : Type} (h1 h2 : H) :
    (pBuild H [("GET", chars "/user/list", h1), ("GET", chars "/user/:id", h2)]).toOption.map
        (fun t => (plookup t "GET" (chars "/user/list") [], plookup t "GET" (chars "/user/bob") [])) =
      some (some (h1, []), some (h2, [("id", "bob")]))
    ∧ (pBuild H [("GET", chars "/user/:id", h2), ("GET", chars "/user/list", h1)]).toOption.map
        (fun t => (plookup t "GET" (chars "/user/list") [], plookup t "GET" (chars "/user/bob") [])) =
      some (some (h1, []), some (h2, [("id", "bob")])) :=
  ⟨rfl, rfl⟩

/-- C9: contrary to the documented conflict policy, registering
/foo/bar/:buzz and then /foo/bar/:bazz raises no error: the snapshot's
insertion silently creates a sibling node (both remain reachable as literal
paths in the snapshot matcher), and in the parameter-aware model the second
parameter name becomes a silent sibling that can never win the scan. -/
theorem param_name_conflict_unenforced :
    (radixNew [⟨"GET", chars "/foo/bar/:buzz", 1⟩, ⟨"GET", chars "/foo/bar/:bazz", 2⟩] :
        Except String (RNode Nat)).toOption.map
        (fun t => (rlookup t "GET" (chars "/foo/bar/:buzz"), rlookup t "GET" (chars "/foo/bar/:bazz"))) =
      some (some 1, some 2)
    ∧ (pBuild Nat [("GET", chars "/foo/bar/:buzz", 1), ("GET", chars "/foo/bar/:bazz", 2)]).toOption.map
        (fun t => plookup t "GET" (chars "/foo/bar/xyz") []) =
      some (some (1, [("buzz", "xyz")])) :=
  ⟨by decide, by decide⟩

/-- C8 counterexample: a malformed path aborts the whole batch, not just its
own route — /a is servable when registered alone, but batching it with the
malformed path xa makes the constructor return an error and no trie at all,
so the well-formed route is lost too. -/
theorem malformed_batch_counterexample :
    (radixNew [⟨"GET", chars "/a", 1⟩, ⟨"GET", chars "xa", 2⟩] : Except String (RNode Nat)) =
      .error "path must start with a slash"
    ∧ (radixNew [⟨"GET", chars "/a", 1⟩] : Except String (RNode Nat)).toOption.map
        (fun t => rlookup t "GET" (chars "/a")) = some (some 1) :=
  ⟨rfl, by decide⟩

/-- Error propagation of the constructor loop: a malformed path anywhere in
the batch makes the whole loop return the malformed-pattern error. -/
theorem buildLoop_error {H : Type} (routes : List (RRoute H)) :
    (∃ r ∈ routes, r.path.head? ≠ some '/') →
    ∀ root, buildLoop root routes = .error "path must start with a slash" := by
  induction routes with
  | nil => rintro ⟨r, hr, _⟩; cases hr
  | cons r rest ih =>
    rintro ⟨r2, hr2, hbad⟩ root
    match hpath : r.path with
    | [] => simp [buildLoop, hpath]
    | c :: cs =>
      by_cases hc : c = '/'
      · subst hc
        have : r2 ∈ rest := by
          rcases List.mem_cons.mp hr2 with h | h
          · subst h; simp [hpath] at hbad
          · exact h
        simp only [buildLoop, hpath]
        exact ih ⟨r2, this, hbad⟩ _
      · simp only [buildLoop, hpath]
        split
        · rename_i heq; cases heq; exact absurd rfl hc
        · rfl

/-- C8 amended: the malformed-pattern error is reported synchronously at
registration time as an error value (the process is not terminated by the
radix layer), but it aborts the entire batch construction — whenever any
route's path does not start with a slash, `New` returns the error and no
trie, so every other route in the batch is lost as well. -/
theorem malformed_path_whole_batch_error {H : Type} (routes : List (RRoute H))
    (hbad : ∃ r ∈ routes, r.path.head? ≠ some '/') :
    radixNew routes = .error "path must start with a slash" := by
  unfold radixNew
  rw [buildLoop_error routes hbad]
  rfl

/-- Witness for C8 amended at a concrete malformed batch. -/
theorem malformed_path_whole_batch_error_witness :
    (∃ r ∈ ([⟨"GET", chars "xa", 2⟩] : List (RRoute Nat)), r.path.head? ≠ some '/')
    ∧ radixNew ([⟨"GET", chars "xa", 2⟩] : List (RRoute Nat)) = .error "path must start with a slash" :=
  ⟨by decide, malformed_path_whole_batch_error _ (by decide)⟩

/-- Whatever the lookup outcome, `ServeHTTP` leaves the shared state with the
started flag set and everything else unchanged. -/
theorem serveB_state (st : RouterSt) (req : GoReq) :
    (serveB st req).1 = { st with started := true } := by
  unfold serveB
  cases plookup st.trie req.method req.path [] with
  | none => rfl
  | some v => cases v; rfl

/-- C2: after any `ServeHTTP` call has set the shared serving flag, every
registration call fails with the documented panic message naming the offending
path, and returns the shared state — in particular the trie and its matchable
set — exactly as it was before the call. -/
theorem post_serve_registration_locked (st : RouterSt) (req : GoReq) (hd : Handle)
    (m : String) (f : GoHandler) :
    addB (serveB st req).1 hd m f =
      ((serveB st req).1,
        some ("cannot register path: " ++ String.mk hd.pfx ++ " since the router is running")) := by
  have hstart : (serveB st req).1.started = true := by rw [serveB_state]
  unfold addB
  simp [hstart]

/-- C3: `Prefix` and `Use` build new handles and never change the prefix or
middleware chain of the handle they are called on; two handles derived from a
common ancestor each hold exactly the ancestor's chain plus their own
additions, so neither observes the other's middleware; and `Prefix` with an
empty segment returns a handle with an unchanged prefix and chain. -/
theorem builder_handles_immutable (hd : Handle) (seg : List Char) (ms1 ms2 : List GoMW) :
    (useB hd ms1).pfx = hd.pfx
    ∧ (prefixB hd seg).mws = hd.mws
    ∧ (useB hd ms1).mws = hd.mws ++ ms1
    ∧ (useB hd ms2).mws = hd.mws ++ ms2
    ∧ (prefixB hd []).pfx = hd.pfx
    ∧ (prefixB hd []).mws = hd.mws := by
  refine ⟨rfl, ?_, rfl, rfl, rfl, rfl⟩
  unfold prefixB
  split <;> rfl

/-- C5: the dispatcher of src/unnamed/part_000 wraps the accumulated global
chain around the resolved handler, and equally around the not-found handler on
a miss, with the first-registered middleware outermost: for the chain
[m1, m2, m3] the executed handler is m1 (m2 (m3 h)). -/
theorem global_chain_outermost_first (t : RNode GoHandler) (nf : GoHandler) (b : Bool)
    (m1 m2 m3 : GoMW) (req : GoReq) :
    serveG ⟨t, nf, [m1, m2, m3], b⟩ req =
      (⟨t, nf, [m1, m2, m3], true⟩,
        match plookup t req.method req.path [] with
        | some (h, ps) => runH (m1 (m2 (m3 h))) (withParams req ps)
        | none => runH (m1 (m2 (m3 nf))) (withParams req [])) := by
  unfold serveG wrapMws
  cases plookup t req.method req.path [] with
  | none => rfl
  | some v => cases v; rfl

/-- C6: a panic raised by the resolved (possibly middleware-wrapped) handler
is recovered at the dispatcher boundary into the generic 500 response, the
dispatch still returns normally with the started flag set, and a subsequent
request whose handler succeeds is served its normal response. -/
theorem handler_panic_contained (st : RouterSt) (req1 req2 : GoReq)
    (h1 : GoHandler) (ps1 : List (String × String)) (e : String)
    (h2 : GoHandler) (ps2 : List (String × String)) (r2 : GoResp)
    (hl1 : plookup st.trie req1.method req1.path [] = some (h1, ps1))
    (hp : h1 (withParams req1 ps1) = .error e)
    (hl2 : plookup st.trie req2.method req2.path [] = some (h2, ps2))
    (hok : h2 (withParams req2 ps2) = .ok r2) :
    serveB st req1 = ({ st with started := true }, resp500)
    ∧ serveB (serveB st req1).1 req2 = ({ st with started := true }, r2) := by
  have hfirst : serveB st req1 = ({ st with started := true }, resp500) := by
    unfold serveB
    rw [hl1]
    simp [runH, hp]
  refine ⟨hfirst, ?_⟩
  rw [serveB_state]
  unfold serveB
  simp only [show ({ st with started := true } : RouterSt).trie = st.trie from rfl]
  rw [hl2]
  simp [runH, hok]

/-- Handler that panics, for the C6 witness. -/
def boomH : GoHandler :=
  fun _ => .error "boom"

/-- Handler that succeeds, for the C6 witness. -/
def okH : GoHandler :=
  fun _ => .ok { status := 200, body := "ok" }

/-- Concrete router state for the C6 witness: routes /boom and /ok. -/
def wstC6 : RouterSt :=
  { trie := addRoute "GET" okH ((splitSlash (chars "/ok")).tail)
      (addRoute "GET" boomH ((splitSlash (chars "/boom")).tail) (pEmpty GoHandler))
    notFound := defaultNotFound
    started := false }

/-- Concrete panicking request for the C6 witness. -/
def reqBoom : GoReq :=
  { method := "GET", path := chars "/boom", ctxParams := none }

/-- Concrete healthy request for the C6 witness. -/
def reqOk : GoReq :=
  { method := "GET", path := chars "/ok", ctxParams := none }

/-- Witness for C6 at a concrete router with a panicking route and a healthy
route. -/
theorem handler_panic_contained_witness :
    (plookup wstC6.trie reqBoom.method reqBoom.path [] = some (boomH, [])
      ∧ boomH (withParams reqBoom []) = .error "boom"
      ∧ plookup wstC6.trie reqOk.method reqOk.path [] = some (okH, [])
      ∧ okH (withParams reqOk []) = .ok { status := 200, body := "ok" })
    ∧ serveB wstC6 reqBoom = ({ wstC6 with started := true }, resp500)
    ∧ serveB (serveB wstC6 reqBoom).1 reqOk = ({ wstC6 with started := true }, { status := 200, body := "ok" }) :=
  ⟨⟨rfl, rfl, rfl, rfl⟩,
    handler_panic_contained wstC6 reqBoom reqOk boomH [] "boom" okH [] _ rfl rfl rfl rfl⟩

/-- C7: a lookup miss is handled as a normal outcome — the dispatcher invokes
the configured not-found handler and binds an explicitly present empty
parameter mapping into the request context (never an absent one). -/
theorem miss_routes_to_not_found (st : RouterSt) (req : GoReq)
    (hmiss : plookup st.trie req.method req.path [] = none) :
    serveB st req = ({ st with started := true }, runH st.notFound (withParams req []))
    ∧ (withParams req []).ctxParams = some []
    ∧ getParams (withParams req []) = [] := by
  refine ⟨?_, rfl, rfl⟩
  unfold serveB
  rw [hmiss]

/-- Handler of the GET /about route in the C7 witness. -/
def aboutH : GoHandler :=
  fun _ => .ok { status := 200, body := "about" }

/-- Concrete router state for the C7 witness: only GET /about registered. -/
def wstC7 : RouterSt :=
  { trie := addRoute "GET" aboutH ((splitSlash (chars "/about")).tail) (pEmpty GoHandler)
    notFound := defaultNotFound
    started := false }

/-- Concrete method-mismatch request for the C7 witness. -/
def reqPostAbout : GoReq :=
  { method := "POST", path := chars "/about", ctxParams := none }

/-- Witness for C7 at a concrete method mismatch on an existing path. -/
theorem miss_routes_to_not_found_witness :
    plookup wstC7.trie reqPostAbout.method reqPostAbout.path [] = none
    ∧ (serveB wstC7 reqPostAbout =
          ({ wstC7 with started := true }, runH wstC7.notFound (withParams reqPostAbout []))
        ∧ (withParams reqPostAbout []).ctxParams = some []
        ∧ getParams (withParams reqPostAbout []) = []) :=
  ⟨rfl, miss_routes_to_not_found wstC7 reqPostAbout rfl⟩

/-!
Compression transparency (C4).  The development below proves that on a trie
built from well-formed routes the post-order compression pass never changes
any lookup outcome.  Well-formedness of a route means its path starts with a
slash and splits into non-empty segments; built tries then satisfy the
invariant `invN`: children carry non-empty slash-free prefixes, pairwise
distinct at every node.
-/

/-- The string `s` extends `q`. -/
theorem strStarts_iff (q s : List Char) : strStarts q s = true ↔ ∃ r, s = q ++ r := by
  induction q generalizing s with
  | nil => simp [strStarts]
  | cons a q2 ih =>
    cases s with
    | nil =>
      simp only [strStarts]
      constructor
      · intro h; cases h
      · rintro ⟨r, hr⟩; cases hr
    | cons b s2 =>
      simp only [strStarts, Bool.and_eq_true, decide_eq_true_eq, ih]
      constructor
      · rintro ⟨hab, r, hr⟩; exact ⟨r, by rw [hab, hr]; rfl⟩
      · rintro ⟨r, hr⟩
        rw [List.cons_append] at hr
        cases hr
        exact ⟨rfl, r, rfl⟩

/-- The string `q ++ r` extends `q`. -/
theorem strStarts_append (q r : List Char) : strStarts q (q ++ r) = true :=
  (strStarts_iff q (q ++ r)).mpr ⟨r, rfl⟩

/-- Characterization of the boundary-checked prefix match: the path is the
prefix followed by a remainder that is empty or begins with a slash. -/
theorem matchB_iff (q p : List Char) :
    matchB q p = true ↔ ∃ r, p = q ++ r ∧ (r = [] ∨ ∃ r2, r = '/' :: r2) := by
  unfold matchB
  simp only [Bool.and_eq_true, Bool.or_eq_true, beq_iff_eq]
  constructor
  · rintro ⟨hs, hb⟩
    rcases (strStarts_iff q p).mp hs with ⟨r, hr⟩
    subst hr
    refine ⟨r, rfl, ?_⟩
    rcases hb with hlen | hget
    · left
      have := List.length_append q r
      rw [this] at hlen
      have : r.length = 0 := by omega
      exact List.length_eq_zero.mp this
    · right
      rw [List.getElem?_append_right (Nat.le_refl _), Nat.sub_self] at hget
      cases r with
      | nil => cases hget
      | cons a r2 =>
        simp only [List.getElem?_cons_zero, Option.some.injEq] at hget
        exact ⟨r2, by rw [hget]⟩
  · rintro ⟨r, hp, hr⟩
    subst hp
    refine ⟨strStarts_append q r, ?_⟩
    rcases hr with hr0 | ⟨r2, hr2⟩
    · left; rw [hr0]; simp
    · right
      rw [hr2, List.getElem?_append_right (Nat.le_refl _), Nat.sub_self]
      simp

/-- A match against an extended prefix factors through a match against the
extension, after peeling the leading prefix and its slash. -/
theorem matchB_append (q w p : List Char) :
    matchB (q ++ '/' :: w) p = true ↔ ∃ u, p = q ++ '/' :: u ∧ matchB w u = true := by
  rw [matchB_iff]
  constructor
  · rintro ⟨r, hp, hr⟩
    refine ⟨w ++ r, by rw [hp]; simp, ?_⟩
    exact (matchB_iff w (w ++ r)).mpr ⟨r, rfl, hr⟩
  · rintro ⟨u, hp, hu⟩
    rcases (matchB_iff w u).mp hu with ⟨r, hur, hr⟩
    exact ⟨r, by rw [hp, hur]; simp, hr⟩

/-- A match against an extended prefix implies a match against the base. -/
theorem matchB_of_extended {q w p : List Char} (h : matchB (q ++ '/' :: w) p = true) :
    matchB q p = true := by
  rcases (matchB_append q w p).mp h with ⟨u, hp, _⟩
  exact (matchB_iff q p).mpr ⟨'/' :: u, hp, Or.inr ⟨u, rfl⟩⟩

/-- The first segment of a path: everything before the first slash. -/
def fseg (p : List Char) : List Char :=
  p.takeWhile (fun c => !(c == '/'))

/-- Taking the first segment skips over a slash-free leading run. -/
theorem fseg_append (q r : List Char) (hq : '/' ∉ q) : fseg (q ++ r) = q ++ fseg r := by
  induction q with
  | nil => simp
  | cons a q2 ih =>
    have ha : ¬(a == '/') = true := by
      simp only [beq_iff_eq]
      intro h; exact hq (by rw [h]; exact List.mem_cons_self _ _)
    have hq2 : '/' ∉ q2 := fun h => hq (List.mem_cons_of_mem _ h)
    simp only [List.cons_append, fseg, List.takeWhile]
    rw [show (!(a == '/')) = true by simp [ha]]
    simpa [fseg] using ih hq2

/-- A boundary match against a non-empty slash-free prefix pins down the first
segment of the path: it equals the prefix. -/
theorem fseg_of_matched {q p : List Char} (hq : '/' ∉ q) (h : matchB q p = true) :
    fseg p = q := by
  rcases (matchB_iff q p).mp h with ⟨r, hp, hr⟩
  subst hp
  rw [fseg_append q r hq]
  rcases hr with hr0 | ⟨r2, hr2⟩
  · rw [hr0]; simp [fseg]
  · rw [hr2]
    simp [fseg, List.takeWhile]

/-!
Unfolding equations for the mutually recursive trie operations, and the trie
invariant of built tries.
-/

/-- Unfolding of `compress` on a node. -/
theorem compress_mk (p : List Char) (cs : RKids H) (t : Option (List (String × H))) :
    compress (.mk p cs t) =
      if p = [] then .mk p (compressKids cs) t
      else
        match compressKids cs, t with
        | .cons c .nil, none => .mk (p ++ '/' :: c.pfxOf) c.kidsOf c.terminalOf
        | cs3, t3 => .mk p cs3 t3 := rfl

/-- Unfolding of `compressKids` on an empty slice. -/
theorem compressKids_nil : compressKids (H := H) .nil = .nil := rfl

/-- Unfolding of `compressKids` on a non-empty slice. -/
theorem compressKids_cons (c : RNode H) (cs : RKids H) :
    compressKids (.cons c cs) = .cons (compress c) (compressKids cs) := rfl

/-- Unfolding of `rlookup` on a node. -/
theorem rlookup_mk (q : List Char) (cs : RKids H) (t : Option (List (String × H)))
    (m : String) (path : List Char) :
    rlookup (.mk q cs t) m path =
      match stripSlash path with
      | [] => findMap m t
      | p2 => rscan cs m p2 := rfl

/-- Unfolding of `rscan` on an empty slice. -/
theorem rscan_nil (m : String) (p : List Char) : rscan (H := H) .nil m p = none := rfl

/-- Unfolding of `rscan` on a non-empty slice. -/
theorem rscan_cons (c : RNode H) (cs : RKids H) (m : String) (p : List Char) :
    rscan (.cons c cs) m p =
      if matchB c.pfxOf p then rlookup c m (p.drop c.pfxOf.length)
      else rscan cs m p := rfl

/-- The prefix of a compressed node is the original prefix, possibly extended
by a slash and a merged-in tail. -/
theorem compress_pfx_shape (c : RNode H) :
    (compress c).pfxOf = c.pfxOf ∨ ∃ w, (compress c).pfxOf = c.pfxOf ++ '/' :: w := by
  cases c with
  | mk p cs t =>
    rw [compress_mk]
    by_cases hp : p = []
    · simp [hp, RNode.pfxOf]
    · rw [if_neg hp]
      cases hcs : compressKids cs with
      | nil => left; rfl
      | cons c1 cs1 =>
        cases cs1 with
        | nil =>
          cases t with
          | none => right; exact ⟨c1.pfxOf, rfl⟩
          | some tv => left; rfl
        | cons c2 cs2 => left; rfl

/-- Compression keeps a non-empty prefix non-empty. -/
theorem compress_pfx_ne_nil {c : RNode H} (h : c.pfxOf ≠ []) : (compress c).pfxOf ≠ [] := by
  rcases compress_pfx_shape c with hs | ⟨w, hs⟩
  · rw [hs]; exact h
  · rw [hs]
    intro habs
    exact (List.append_ne_nil_of_right_ne_nil _ (List.cons_ne_nil _ _)) habs

/-- A boundary match against a compressed child's prefix implies one against
the original child's prefix. -/
theorem matchB_of_compress {c : RNode H} {p : List Char}
    (h : matchB (compress c).pfxOf p = true) : matchB c.pfxOf p = true := by
  rcases compress_pfx_shape c with hs | ⟨w, hs⟩
  · rwa [hs] at h
  · rw [hs] at h
    exact matchB_of_extended h

/-- A good segment: non-empty and slash-free, as produced by splitting a
well-formed path. -/
def goodSeg (s : List Char) : Prop :=
  s ≠ [] ∧ '/' ∉ s

/-- The prefixes of a child slice, in order. -/
def kidsPfxs : RKids H → List (List Char)
  | .nil => []
  | .cons c cs => c.pfxOf :: kidsPfxs cs

/-- Membership in a child slice. -/
def kmem (x : RNode H) : RKids H → Prop
  | .nil => False
  | .cons c cs => x = c ∨ kmem x cs

mutual

/-- Invariant of built (uncompressed) tries: at every node the children carry
good segments as prefixes, pairwise distinct, and satisfy the invariant
recursively.  The node's own prefix is unconstrained, which lets the same
predicate cover the root. -/
def invN : RNode H → Prop
  | .mk _ cs _ => invK cs ∧ (kidsPfxs cs).Nodup

/-- Child-slice part of the trie invariant. -/
def invK : RKids H → Prop
  | .nil => True
  | .cons c cs => goodSeg c.pfxOf ∧ invN c ∧ invK cs

end

/-- Unfolding of `invN`. -/
theorem invN_mk (p : List Char) (cs : RKids H) (t : Option (List (String × H))) :
    invN (.mk p cs t) ↔ invK cs ∧ (kidsPfxs cs).Nodup := Iff.rfl

/-- Unfolding of `invK` on a non-empty slice. -/
theorem invK_cons (c : RNode H) (cs : RKids H) :
    invK (.cons c cs) ↔ goodSeg c.pfxOf ∧ invN c ∧ invK cs := Iff.rfl

/-- The empty slice is invariant. -/
theorem invK_nil : invK (RKids.nil : RKids H) := by
  have h : invK (RKids.nil : RKids H) = True := rfl
  rw [h]
  trivial

/-- Prefix list of the empty slice. -/
theorem kidsPfxs_nil : kidsPfxs (RKids.nil : RKids H) = [] := rfl

/-- A childless node is invariant. -/
theorem invN_fresh (seg : List Char) (t : Option (List (String × H))) :
    invN (RNode.mk seg .nil t) := by
  refine (invN_mk _ _ _).mpr ⟨invK_nil, ?_⟩
  rw [kidsPfxs_nil]
  exact List.nodup_nil

mutual

/-- Size of a node, for strong induction. -/
def nsize : RNode H → Nat
  | .mk _ cs _ => 1 + ksize cs

/-- Size of a child slice. -/
def ksize : RKids H → Nat
  | .nil => 0
  | .cons c cs => nsize c + ksize cs

end

/-- Unfolding of `nsize`. -/
theorem nsize_mk (p : List Char) (cs : RKids H) (t : Option (List (String × H))) :
    nsize (.mk p cs t) = 1 + ksize cs := rfl

/-- Unfolding of `ksize` on a non-empty slice. -/
theorem ksize_cons (c : RNode H) (cs : RKids H) :
    ksize (.cons c cs) = nsize c + ksize cs := rfl

/-- Induction over the spine of a child slice (the mutual recursor
specialized to a trivial node motive). -/
theorem kspine {H : Type} {motive : RKids H → Prop} (hnil : motive .nil)
    (hcons : ∀ (c : RNode H) (cs : RKids H), motive cs → motive (.cons c cs)) :
    ∀ cs, motive cs :=
  fun cs =>
    @RKids.rec H (fun _ => True) (fun cs => motive cs)
      (fun _ _ _ _ => trivial) hnil (fun c cs _ ih => hcons c cs ih) cs

/-- A member of a child slice is no larger than the slice. -/
theorem ksize_of_kmem {x : RNode H} : ∀ {cs : RKids H}, kmem x cs → nsize x ≤ ksize cs := by
  intro cs
  induction cs using kspine with
  | hnil => intro h; cases h
  | hcons c cs ih =>
    intro h
    rcases h with h | h
    · subst h; rw [ksize_cons]; omega
    · rw [ksize_cons]
      have := ih h
      omega

/-- Members of an invariant slice are invariant nodes with good prefixes. -/
theorem invK_of_kmem {x : RNode H} : ∀ {cs : RKids H}, invK cs → kmem x cs →
    goodSeg x.pfxOf ∧ invN x := by
  intro cs
  induction cs using kspine with
  | hnil => intro _ h; cases h
  | hcons c cs ih =>
    intro hinv h
    rcases (invK_cons c cs).mp hinv with ⟨hg, hn, hk⟩
    rcases h with h | h
    · subst h; exact ⟨hg, hn⟩
    · exact ih hk h

/-- Projection of the node constructor. -/
theorem pfxOf_mk (p : List Char) (cs : RKids H) (t : Option (List (String × H))) :
    (RNode.mk p cs t).pfxOf = p := rfl

/-- Projection of the node constructor. -/
theorem kidsOf_mk (p : List Char) (cs : RKids H) (t : Option (List (String × H))) :
    (RNode.mk p cs t).kidsOf = cs := rfl

/-- Projection of the node constructor. -/
theorem terminalOf_mk (p : List Char) (cs : RKids H) (t : Option (List (String × H))) :
    (RNode.mk p cs t).terminalOf = t := rfl

/-- Scanning a singleton slice only depends on the node's prefix, terminal map
and the behaviour of scanning its children: the node's child slice can be
replaced by a scan-equivalent one. -/
theorem scan_single_congr (A : List Char) (cs cs2 : RKids H)
    (t : Option (List (String × H)))
    (hbody : ∀ m p2, rscan cs2 m p2 = rscan cs m p2) (m : String) (p : List Char) :
    rscan (.cons (.mk A cs2 t) .nil) m p = rscan (.cons (.mk A cs t) .nil) m p := by
  simp only [rscan_cons, pfxOf_mk]
  by_cases hm : matchB A p = true
  · rw [if_pos hm, if_pos hm, rlookup_mk, rlookup_mk]
    cases stripSlash (p.drop A.length) with
    | nil => rfl
    | cons a r => exact hbody m (a :: r)
  · rw [if_neg hm, if_neg hm]

/-- When no child's prefix equals the path's first segment, the compressed
slice scan misses. -/
theorem rscan_compress_none (m : String) (p : List Char) :
    ∀ cs : RKids H, (∀ x, kmem x cs → goodSeg x.pfxOf) → fseg p ∉ kidsPfxs cs →
    rscan (compressKids cs) m p = none := by
  intro cs
  induction cs using kspine with
  | hnil => intro _ _; rw [compressKids_nil, rscan_nil]
  | hcons c cs ih =>
    intro hgood hout
    rw [compressKids_cons, rscan_cons]
    have hnm : ¬ matchB (compress c).pfxOf p = true := by
      intro h
      have hmc : matchB c.pfxOf p = true := matchB_of_compress h
      have : fseg p = c.pfxOf := fseg_of_matched (hgood c (Or.inl rfl)).2 hmc
      exact hout (by rw [this, kidsPfxs]; exact List.mem_cons_self _ _)
    rw [if_neg hnm]
    refine ih (fun x hx => hgood x (Or.inr hx)) ?_
    intro h
    exact hout (by rw [kidsPfxs]; exact List.mem_cons_of_mem _ h)

/-- Scanning the compressed children agrees with scanning the originals,
provided the compressed singleton scan already agrees child by child. -/
theorem rscan_compress_eq_of :
    ∀ cs : RKids H,
    (∀ x, kmem x cs → ∀ m p, rscan (.cons (compress x) .nil) m p = rscan (.cons x .nil) m p) →
    invK cs → (kidsPfxs cs).Nodup →
    ∀ (m : String) (p : List Char), rscan (compressKids cs) m p = rscan cs m p := by
  intro cs
  induction cs using kspine with
  | hnil => intro _ _ _ m p; rw [compressKids_nil]
  | hcons c cs ih =>
    intro hL hk hnd m p
    rcases (invK_cons c cs).mp hk with ⟨hgood, hn, hktail⟩
    have hndtail : (kidsPfxs cs).Nodup := by
      rw [kidsPfxs] at hnd; exact hnd.of_cons
    have hLc := hL c (Or.inl rfl) m p
    simp only [rscan_cons, rscan_nil] at hLc
    rw [compressKids_cons, rscan_cons, rscan_cons]
    by_cases hm : matchB c.pfxOf p = true
    · by_cases hm2 : matchB (compress c).pfxOf p = true
      · rw [if_pos hm2, if_pos hm]
        rw [if_pos hm2, if_pos hm] at hLc
        exact hLc
      · rw [if_neg hm2, if_pos hm]
        rw [if_neg hm2, if_pos hm] at hLc
        have hfs : fseg p = c.pfxOf := fseg_of_matched hgood.2 hm
        have hout : fseg p ∉ kidsPfxs cs := by
          rw [kidsPfxs] at hnd
          rw [hfs]
          exact (List.nodup_cons.mp hnd).1
        rw [rscan_compress_none m p cs (fun x hx => (invK_of_kmem hktail hx).1) hout]
        exact hLc
    · have hm2 : ¬ matchB (compress c).pfxOf p = true := fun h => hm (matchB_of_compress h)
      rw [if_neg hm2, if_neg hm]
      exact ih (fun x hx => hL x (Or.inr hx)) hktail hndtail m p

/-- Value of a singleton-slice scan. -/
theorem rscan_single (x : RNode H) (m : String) (p : List Char) :
    rscan (.cons x .nil) m p =
      if matchB x.pfxOf p = true then rlookup x m (p.drop x.pfxOf.length) else none := by
  rw [rscan_cons, rscan_nil]

/-- Matching the whole of a strictly shorter prefix is impossible: a prefix
extended past the path's length never boundary-matches it. -/
theorem not_matchB_longer (A P1 : List Char) :
    ¬ matchB (A ++ '/' :: P1) A = true := by
  intro h
  rcases (matchB_iff _ _).mp h with ⟨r2, hr2, _⟩
  have := congrArg List.length hr2
  simp [List.length_append] at this

/-- Core of compression transparency: on an invariant node with a good prefix,
scanning the compressed node alone agrees with scanning the original node
alone, on every method and path. -/
theorem compress_child_scan_eq :
    ∀ (k : Nat) (c : RNode H), nsize c ≤ k → goodSeg c.pfxOf → invN c →
    ∀ (m : String) (p : List Char),
    rscan (.cons (compress c) .nil) m p = rscan (.cons c .nil) m p := by
  intro k
  induction k with
  | zero =>
    intro c hsz
    cases c with
    | mk A cs t => rw [nsize_mk] at hsz; omega
  | succ k ih =>
    intro c hsz hgood hinv m p
    cases c with
    | mk A cs t =>
      rw [nsize_mk] at hsz
      rcases (invN_mk A cs t).mp hinv with ⟨hk, hnd⟩
      have hA : A ≠ [] := by rw [pfxOf_mk] at hgood; exact hgood.1
      have hAs : '/' ∉ A := by rw [pfxOf_mk] at hgood; exact hgood.2
      cases hcs : cs with
      | nil =>
        have hcomp : compress (RNode.mk A .nil t) = .mk A .nil t := by
          rw [compress_mk, if_neg hA, compressKids_nil]
        rw [hcomp]
      | cons c1 cs1 =>
        cases cs1 with
        | cons c2 cs2 =>
          have hcomp : compress (RNode.mk A (.cons c1 (.cons c2 cs2)) t) =
              .mk A (compressKids (.cons c1 (.cons c2 cs2))) t := by
            rw [compress_mk, if_neg hA, compressKids_cons, compressKids_cons]
          rw [hcomp]
          subst hcs
          refine scan_single_congr A _ _ t ?_ m p
          intro m2 p2
          refine rscan_compress_eq_of _ ?_ hk hnd m2 p2
          intro x hx m3 p3
          rcases invK_of_kmem hk hx with ⟨hgx, hix⟩
          have h1 := ksize_of_kmem hx
          exact ih x (by omega) hgx hix m3 p3
        | nil =>
          cases t with
          | some tv =>
            have hcomp : compress (RNode.mk A (.cons c1 .nil) (some tv)) =
                .mk A (compressKids (.cons c1 .nil)) (some tv) := by
              rw [compress_mk, if_neg hA, compressKids_cons, compressKids_nil]
            rw [hcomp]
            subst hcs
            refine scan_single_congr A _ _ (some tv) ?_ m p
            intro m2 p2
            refine rscan_compress_eq_of _ ?_ hk hnd m2 p2
            intro x hx m3 p3
            rcases invK_of_kmem hk hx with ⟨hgx, hix⟩
            have h1 := ksize_of_kmem hx
            exact ih x (by omega) hgx hix m3 p3
          | none =>
            -- merge case
            subst hcs
            rcases (invK_cons c1 .nil).mp hk with ⟨hg1, hi1, _⟩
            have hsz1 : nsize c1 ≤ k := by
              rw [ksize_cons] at hsz
              have : ksize (RKids.nil : RKids H) = 0 := rfl
              omega
            have IH1 : ∀ (m2 : String) (p2 : List Char),
                rscan (.cons (compress c1) .nil) m2 p2 = rscan (.cons c1 .nil) m2 p2 :=
              fun m2 p2 => ih c1 hsz1 hg1 hi1 m2 p2
            have hP1ne : (compress c1).pfxOf ≠ [] := compress_pfx_ne_nil hg1.1
            have hcomp : compress (RNode.mk A (.cons c1 .nil) none) =
                .mk (A ++ '/' :: (compress c1).pfxOf) (compress c1).kidsOf (compress c1).terminalOf := by
              rw [compress_mk, if_neg hA, compressKids_cons, compressKids_nil]
            rw [hcomp]
            cases hc1 : compress c1 with
            | mk P1 K1 T1 =>
              rw [hc1] at hP1ne IH1
              rw [pfxOf_mk] at hP1ne
              simp only [pfxOf_mk, kidsOf_mk, terminalOf_mk]
              rw [rscan_single, rscan_single, pfxOf_mk, pfxOf_mk]
              by_cases hm : matchB A p = true
              · rw [if_pos hm]
                rcases (matchB_iff A p).mp hm with ⟨r, hpr, hbd⟩
                rcases hbd with hr0 | ⟨u, hru⟩
                · subst hr0
                  rw [List.append_nil] at hpr
                  rw [hpr]
                  rw [if_neg (not_matchB_longer A P1)]
                  rw [show List.drop A.length A = ([] : List Char) by simp]
                  rfl
                · subst hru
                  subst hpr
                  have hdropA : List.drop A.length (A ++ '/' :: u) = '/' :: u := List.drop_left A _
                  rw [hdropA]
                  cases u with
                  | nil =>
                    have hm2 : ¬ matchB (A ++ '/' :: P1) (A ++ ['/']) = true := by
                      intro h
                      rcases (matchB_append A P1 _).mp h with ⟨u2, heq, hP1u2⟩
                      have h2 : ('/' : Char) :: [] = '/' :: u2 := List.append_cancel_left heq
                      have hu2 : u2 = [] := by cases h2; rfl
                      subst hu2
                      cases hP1 : P1 with
                      | nil => exact hP1ne hP1
                      | cons a as =>
                        rw [hP1] at hP1u2
                        simp [matchB, strStarts] at hP1u2
                    rw [if_neg hm2]
                    rfl
                  | cons uc urest =>
                    change _ = rscan (.cons c1 .nil) m (uc :: urest)
                    by_cases hm3 : matchB P1 (uc :: urest) = true
                    · have hm2 : matchB (A ++ '/' :: P1) (A ++ '/' :: uc :: urest) = true :=
                        (matchB_append _ _ _).mpr ⟨uc :: urest, rfl, hm3⟩
                      rw [if_pos hm2]
                      rcases (matchB_iff P1 _).mp hm3 with ⟨ru, hu, _⟩
                      have hdrop2 : (A ++ '/' :: uc :: urest).drop (A ++ '/' :: P1).length = ru := by
                        rw [hu]
                        have hassoc : A ++ '/' :: (P1 ++ ru) = (A ++ '/' :: P1) ++ ru := by simp
                        rw [hassoc, List.drop_left]
                      have hd3 : (uc :: urest).drop P1.length = ru := by rw [hu, List.drop_left]
                      rw [hdrop2]
                      calc rlookup (.mk (A ++ '/' :: P1) K1 T1) m ru
                          = rlookup (.mk P1 K1 T1) m ru := rfl
                        _ = rscan (.cons (RNode.mk P1 K1 T1) .nil) m (uc :: urest) := by
                            rw [rscan_single, pfxOf_mk, if_pos hm3, hd3]
                        _ = rscan (.cons c1 .nil) m (uc :: urest) := IH1 m (uc :: urest)
                    · have hm2 : ¬ matchB (A ++ '/' :: P1) (A ++ '/' :: uc :: urest) = true := by
                        intro h
                        rcases (matchB_append A P1 _).mp h with ⟨u2, heq, hP1u2⟩
                        have h2 : ('/' : Char) :: uc :: urest = '/' :: u2 := List.append_cancel_left heq
                        have hu2 : u2 = uc :: urest := by cases h2; rfl
                        rw [hu2] at hP1u2
                        exact hm3 hP1u2
                      rw [if_neg hm2]
                      calc (none : Option H)
                          = rscan (.cons (RNode.mk P1 K1 T1) .nil) m (uc :: urest) := by
                            rw [rscan_single, pfxOf_mk, if_neg hm3]
                        _ = rscan (.cons c1 .nil) m (uc :: urest) := IH1 m (uc :: urest)
              · have hm2 : ¬ matchB (A ++ '/' :: P1) p = true := by
                  intro h
                  exact hm (matchB_of_extended h)
                rw [if_neg hm, if_neg hm2]

/-- Compressing the root only compresses the children, so root lookup agrees
with the uncompressed root lookup on an invariant trie. -/
theorem compress_root_lookup_eq (cs : RKids H) (t : Option (List (String × H)))
    (hroot : invN (.mk [] cs t)) (m : String) (p : List Char) :
    rlookup (compress (.mk [] cs t)) m p = rlookup (.mk [] cs t) m p := by
  rcases (invN_mk _ _ _).mp hroot with ⟨hk, hnd⟩
  have hcomp : compress (RNode.mk ([] : List Char) cs t) = .mk [] (compressKids cs) t := by
    rw [compress_mk, if_pos rfl]
  rw [hcomp, rlookup_mk, rlookup_mk]
  cases hs : stripSlash p with
  | nil => rfl
  | cons a r =>
    refine rscan_compress_eq_of cs ?_ hk hnd m (a :: r)
    intro x hx m3 p3
    rcases invK_of_kmem hk hx with ⟨hgx, hix⟩
    exact compress_child_scan_eq (nsize x) x (Nat.le_refl _) hgx hix m3 p3

/-- Unfolding of `addRoute` at the final segment. -/
theorem addRoute_nil_seg (m : String) (h : H) (p : List Char) (cs : RKids H)
    (t : Option (List (String × H))) :
    addRoute m h [] (.mk p cs t) = .mk p cs (some (updMap m h (t.getD []))) := rfl

/-- Unfolding of `addRoute` at an inner segment. -/
theorem addRoute_cons_seg (m : String) (h : H) (seg : List Char) (rest : List (List Char))
    (p : List Char) (cs : RKids H) (t : Option (List (String × H))) :
    addRoute m h (seg :: rest) (.mk p cs t) =
      match kget seg cs with
      | some c => .mk p (kset seg (addRoute m h rest c) cs) t
      | none => .mk p (kapp (addRoute m h rest (.mk seg .nil none)) cs) t := rfl

/-- Unfolding of `kget`. -/
theorem kget_cons (seg : List Char) (c : RNode H) (cs : RKids H) :
    kget seg (.cons c cs) = if c.pfxOf = seg then some c else kget seg cs := rfl

/-- Unfolding of `kset`. -/
theorem kset_cons (seg : List Char) (n c : RNode H) (cs : RKids H) :
    kset seg n (.cons c cs) = if c.pfxOf = seg then .cons n cs else .cons c (kset seg n cs) := rfl

/-- Unfolding of `kapp`. -/
theorem kapp_cons (n c : RNode H) (cs : RKids H) :
    kapp n (.cons c cs) = .cons c (kapp n cs) := rfl

/-- Unfolding of `kidsPfxs`. -/
theorem kidsPfxs_cons (c : RNode H) (cs : RKids H) :
    kidsPfxs (.cons c cs) = c.pfxOf :: kidsPfxs cs := rfl

/-- Insertion never changes a node prefix. -/
theorem addRoute_pfx (m : String) (h : H) :
    ∀ (segs : List (List Char)) (n : RNode H), (addRoute m h segs n).pfxOf = n.pfxOf := by
  intro segs n
  cases n with
  | mk p cs t =>
    cases segs with
    | nil => rfl
    | cons seg rest =>
      rw [addRoute_cons_seg]
      cases kget seg cs <;> rfl

/-- A found child has the sought prefix and is a member. -/
theorem kget_some {seg : List Char} {c : RNode H} :
    ∀ {cs : RKids H}, kget seg cs = some c → c.pfxOf = seg ∧ kmem c cs := by
  intro cs
  induction cs using kspine with
  | hnil => intro h; cases h
  | hcons d ds ih =>
    intro h
    rw [kget_cons] at h
    by_cases hd : d.pfxOf = seg
    · rw [if_pos hd] at h
      cases h
      exact ⟨hd, Or.inl rfl⟩
    · rw [if_neg hd] at h
      rcases ih h with ⟨h1, h2⟩
      exact ⟨h1, Or.inr h2⟩

/-- A missed sought prefix is absent from the prefix list. -/
theorem kget_none {seg : List Char} :
    ∀ {cs : RKids H}, kget seg cs = none → seg ∉ kidsPfxs cs := by
  intro cs
  induction cs using kspine with
  | hnil => intro _ h; cases h
  | hcons d ds ih =>
    intro h hm
    rw [kget_cons] at h
    by_cases hd : d.pfxOf = seg
    · rw [if_pos hd] at h; cases h
    · rw [if_neg hd] at h
      rw [kidsPfxs_cons] at hm
      rcases List.mem_cons.mp hm with hm | hm
      · exact hd hm.symm
      · exact ih h hm

/-- Replacing the matched child by one with the same prefix keeps the prefix
list. -/
theorem kidsPfxs_kset {seg : List Char} {n : RNode H} (hn : n.pfxOf = seg) :
    ∀ cs : RKids H, kidsPfxs (kset seg n cs) = kidsPfxs cs := by
  intro cs
  induction cs using kspine with
  | hnil => rfl
  | hcons d ds ih =>
    rw [kset_cons]
    by_cases hd : d.pfxOf = seg
    · rw [if_pos hd, kidsPfxs_cons, kidsPfxs_cons, hn, hd]
    · rw [if_neg hd, kidsPfxs_cons, kidsPfxs_cons, ih]

/-- Replacing the matched child by a good invariant node keeps the slice
invariant. -/
theorem invK_kset {seg : List Char} {n : RNode H} (hg : goodSeg n.pfxOf) (hi : invN n) :
    ∀ cs : RKids H, invK cs → invK (kset seg n cs) := by
  intro cs
  induction cs using kspine with
  | hnil => intro h; exact h
  | hcons d ds ih =>
    intro hk
    rcases (invK_cons d ds).mp hk with ⟨hgd, hid, hkd⟩
    rw [kset_cons]
    by_cases hd : d.pfxOf = seg
    · rw [if_pos hd]
      exact (invK_cons n ds).mpr ⟨hg, hi, hkd⟩
    · rw [if_neg hd]
      exact (invK_cons d _).mpr ⟨hgd, hid, ih hkd⟩

/-- Appending a good invariant node keeps the slice invariant. -/
theorem invK_kapp {n : RNode H} (hg : goodSeg n.pfxOf) (hi : invN n) :
    ∀ cs : RKids H, invK cs → invK (kapp n cs) := by
  intro cs
  induction cs using kspine with
  | hnil => intro _; exact (invK_cons n .nil).mpr ⟨hg, hi, invK_nil⟩
  | hcons d ds ih =>
    intro hk
    rcases (invK_cons d ds).mp hk with ⟨hgd, hid, hkd⟩
    rw [kapp_cons]
    exact (invK_cons d _).mpr ⟨hgd, hid, ih hkd⟩

/-- Prefix list of an append. -/
theorem kidsPfxs_kapp (n : RNode H) :
    ∀ cs : RKids H, kidsPfxs (kapp n cs) = kidsPfxs cs ++ [n.pfxOf] := by
  intro cs
  induction cs using kspine with
  | hnil => rfl
  | hcons d ds ih =>
    rw [kapp_cons, kidsPfxs_cons, kidsPfxs_cons, ih]
    rfl

/-- Insertion of good segments preserves the trie invariant. -/
theorem addRoute_invN (m : String) (h : H) :
    ∀ (segs : List (List Char)), (∀ s ∈ segs, goodSeg s) →
    ∀ n : RNode H, invN n → invN (addRoute m h segs n) := by
  intro segs
  induction segs with
  | nil =>
    intro _ n hn
    cases n with
    | mk p cs t =>
      rw [addRoute_nil_seg]
      exact (invN_mk _ _ _).mpr ((invN_mk _ _ _).mp hn)
  | cons seg rest ih =>
    intro hgood n hn
    have hgseg : goodSeg seg := hgood seg (List.mem_cons_self _ _)
    have hgrest : ∀ s ∈ rest, goodSeg s := fun s hs => hgood s (List.mem_cons_of_mem _ hs)
    cases n with
    | mk p cs t =>
      rcases (invN_mk _ _ _).mp hn with ⟨hk, hnd⟩
      rw [addRoute_cons_seg]
      cases hkg : kget seg cs with
      | some c =>
        rcases kget_some hkg with ⟨hcp, hcm⟩
        rcases invK_of_kmem hk hcm with ⟨hgc, hic⟩
        have hi2 : invN (addRoute m h rest c) := ih hgrest c hic
        have hp2 : (addRoute m h rest c).pfxOf = seg := by rw [addRoute_pfx, hcp]
        refine (invN_mk _ _ _).mpr ⟨?_, ?_⟩
        · exact invK_kset (by rw [hp2]; exact hgseg) hi2 cs hk
        · rw [kidsPfxs_kset hp2]; exact hnd
      | none =>
        have hifresh : invN (RNode.mk seg .nil (none : Option (List (String × H)))) :=
          invN_fresh seg none
        have hi2 : invN (addRoute m h rest (.mk seg .nil none)) := ih hgrest _ hifresh
        have hp2 : (addRoute m h rest (.mk seg .nil none)).pfxOf = seg := by
          rw [addRoute_pfx, pfxOf_mk]
        refine (invN_mk _ _ _).mpr ⟨?_, ?_⟩
        · exact invK_kapp (by rw [hp2]; exact hgseg) hi2 cs hk
        · rw [kidsPfxs_kapp, hp2]
          simp only [List.nodup_append, List.nodup_cons, List.not_mem_nil, not_false_iff,
            List.nodup_nil, and_true, true_and]
          constructor
          · exact hnd
          · intro x hx hx1
            rcases List.mem_singleton.mp hx1 with rfl
            exact (kget_none hkg) hx

/-- Every chunk produced by splitting at slashes is slash-free. -/
theorem splitSlash_no_slash : ∀ l : List Char, ∀ s ∈ splitSlash l, '/' ∉ s := by
  intro l
  induction l with
  | nil =>
    intro s hs
    rcases List.mem_singleton.mp hs with rfl
    exact List.not_mem_nil _
  | cons c rest ih =>
    intro s hs
    by_cases hc : c = '/'
    · rw [splitSlash, if_pos hc] at hs
      rcases List.mem_cons.mp hs with rfl | hs
      · exact List.not_mem_nil _
      · exact ih s hs
    · rw [splitSlash, if_neg hc] at hs
      cases hsp : splitSlash rest with
      | nil =>
        rw [hsp] at hs
        rcases List.mem_singleton.mp hs with rfl
        intro hmem
        rcases List.mem_singleton.mp hmem with rfl
        exact hc rfl
      | cons s0 ss =>
        rw [hsp] at hs
        rcases List.mem_cons.mp hs with rfl | hs
        · intro hmem
          rcases List.mem_cons.mp hmem with rfl | hmem
          · exact hc rfl
          · exact ih s0 (by rw [hsp]; exact List.mem_cons_self _ _) hmem
        · exact ih s (by rw [hsp]; exact List.mem_cons_of_mem _ hs)

/-- A well-formed route: the path starts with a slash and splits into
non-empty segments. -/
def WFroute (r : RRoute H) : Prop :=
  r.path.head? = some '/' ∧ ∀ s ∈ (splitSlash r.path).tail, s ≠ []

instance (r : RRoute H) : Decidable (WFroute r) := by
  unfold WFroute
  infer_instance

/-- The constructor loop sends an invariant root and well-formed routes to an
invariant trie with the root prefix kept. -/
theorem buildLoop_invN :
    ∀ (routes : List (RRoute H)) (root : RNode H), invN root → root.pfxOf = [] →
    (∀ r ∈ routes, WFroute r) →
    ∀ t, buildLoop root routes = .ok t → invN t ∧ t.pfxOf = [] := by
  intro routes
  induction routes with
  | nil =>
    intro root hroot hpfx _ t ht
    cases ht
    exact ⟨hroot, hpfx⟩
  | cons r rest ih =>
    intro root hroot hpfx hwf t ht
    rcases hwf r (List.mem_cons_self _ _) with ⟨hhead, hsegs⟩
    cases hp : r.path with
    | nil => rw [hp] at hhead; cases hhead
    | cons c ptail =>
      rw [hp] at hhead
      have hc : c = '/' := by
        simp only [List.head?] at hhead
        cases hhead
        rfl
      subst hc
      rw [buildLoop, hp] at ht
      have hgood : ∀ s ∈ (splitSlash r.path).tail, goodSeg s := by
        intro s hs
        refine ⟨hsegs s hs, ?_⟩
        exact splitSlash_no_slash r.path s (List.mem_of_mem_tail hs)
      have hroot2 : invN (addRoute r.method r.handler ((splitSlash r.path).tail) root) := by
        refine addRoute_invN _ _ _ hgood root hroot
      have hpfx2 : (addRoute r.method r.handler ((splitSlash r.path).tail) root).pfxOf = [] := by
        rw [addRoute_pfx, hpfx]
      have ht2 : buildLoop (addRoute r.method r.handler ((splitSlash r.path).tail) root) rest = .ok t := by
        rw [← ht, hp]
        rfl
      exact ih _ hroot2 hpfx2 (fun r2 h2 => hwf r2 (List.mem_cons_of_mem _ h2)) t ht2

/-- C4: on a trie built from well-formed routes, the lookup outcome is the
same whether or not the post-order compression pass ran — compaction never
changes any observable (handler, found) lookup result, for every method and
every request path. -/
theorem compress_transparent {H : Type} (routes : List (RRoute H))
    (hwf : ∀ r ∈ routes, WFroute r) (m : String) (p : List Char) :
    (radixNew routes).map (fun t => rlookup t m p) =
      (buildLoop (.mk [] .nil none) routes).map (fun t => rlookup t m p) := by
  unfold radixNew
  cases hb : buildLoop (RNode.mk ([] : List Char) .nil none) routes with
  | error e => rfl
  | ok t =>
    have hroot0 : invN (RNode.mk ([] : List Char) .nil (none : Option (List (String × H)))) :=
      invN_fresh [] none
    rcases buildLoop_invN routes _ hroot0 rfl hwf t hb with ⟨hit, hpfx⟩
    cases t with
    | mk tp tcs tt =>
      rw [pfxOf_mk] at hpfx
      subst hpfx
      simp only [Except.map]
      rw [compress_root_lookup_eq tcs tt hit m p]

/-- Concrete route set for the C4 witness (the radix round-trip test's
routes). -/
def wroutesC4 : List (RRoute Nat) :=
  [⟨"GET", chars "/url/path/to/resource", 1⟩, ⟨"PATCH", chars "/foo/bar/baz", 2⟩]

/-- Witness for C4 at the concrete test routes and a concrete request. -/
theorem compress_transparent_witness :
    (∀ r ∈ wroutesC4, WFroute r)
    ∧ (radixNew wroutesC4).map (fun t => rlookup t "GET" (chars "/url/path/to/resource")) =
        (buildLoop (.mk [] .nil none) wroutesC4).map
          (fun t => rlookup t "GET" (chars "/url/path/to/resource")) :=
  ⟨by decide, compress_transparent wroutesC4 (by decide) "GET" (chars "/url/path/to/resource")⟩

end Kami
